import Mathlib

/-!
# Key-case transcoding at the network boundary — verification development

This file embeds, in Lean 4, the key-case transcoder and the axios
request/response glue of the repository (`src/index.js`).  The transcoder
itself (`camelcase-keys` / `snakecase-keys`) is an external dependency whose
source is not part of the repository, so its behaviour is modelled from the
specification; the axios `transformRequest` / `transformResponse` wrappers are
embedded from `src/index.js` directly.
-/

/-! ## Character tables (ASCII) -/

def lowerChars : List Char := "abcdefghijklmnopqrstuvwxyz".data

def upperChars : List Char := "ABCDEFGHIJKLMNOPQRSTUVWXYZ".data

def digitChars : List Char := "0123456789".data

/-- An ASCII letter or digit. -/
def alnum (c : Char) : Bool :=
  decide (c ∈ lowerChars) || decide (c ∈ upperChars) || decide (c ∈ digitChars)

/-! ## Key-rewrite functions

Modelled from the spec: the camelCase → snake_case rewrite inserts one
underscore at each word transition (an uppercase letter that is not at
position 0, not preceded by an underscore, and — per §9's
"single-underscore-per-transition" mandate — not preceded by another
uppercase letter, so acronym runs collapse), then lowercases every
character. -/

/-- Does a word boundary fall before an uppercase letter whose original
predecessor is `prev`?  `none` means position 0. -/
def boundaryOk : Option Char → Bool
  | none => false
  | some p => !(p == '_') && !p.isUpper

/-- Core of the camelCase → snake_case rewrite; `prev` is the previous
character of the original key, `none` at position 0. -/
def csAux : Option Char → List Char → List Char
  | _, [] => []
  | prev, c :: rest =>
      (if c.isUpper && boundaryOk prev then ['_', c.toLower] else [c.toLower])
        ++ csAux (some c) rest

/-- The camelCase → snake_case key rewrite (modelled from the spec). -/
def camelToSnake (s : String) : String := ⟨csAux none s.data⟩

/-- Modelled from the spec: the snake_case → camelCase rewrite removes every
underscore and uppercases the character immediately following it (consecutive
underscores collapse; a trailing underscore has no follower and is simply
dropped). -/
def scAux : List Char → List Char
  | [] => []
  | [c] => if c = '_' then [] else [c]
  | c :: d :: t =>
      if c = '_' then
        if d = '_' then scAux (d :: t) else d.toUpper :: scAux t
      else c :: scAux (d :: t)

/-- The snake_case → camelCase key rewrite on character lists: leading
underscores are stripped and ignored, then `scAux` removes the remaining
underscores and uppercases their followers. -/
def snakeToCamelList (l : List Char) : List Char :=
  scAux (l.dropWhile (fun c => c == '_'))

/-- The snake_case → camelCase key rewrite (modelled from the spec). -/
def snakeToCamel (s : String) : String := ⟨snakeToCamelList s.data⟩

/-! ## Key-shape predicates

These delimit the keys for which the spec's round-trip law is claimed: ASCII
letters/digits only, first character not uppercase, and — excluding exactly the
acronym-collapse ambiguity of §9 — no two adjacent uppercase letters on the
camel side, and no word boundary immediately followed by another word boundary
(no single-letter inner word, no digit right after an underscore) on the snake
side. -/

/-- Is the first character (if any) uppercase? -/
def headIsUpper (l : List Char) : Bool := (l.head?.map Char.isUpper).getD false

/-- Does the list start with an underscore? -/
def headIsUnderscore (l : List Char) : Bool := l.head? == some '_'

/-- All characters are ASCII alphanumerics and no two adjacent ones are both
uppercase (acronym runs are the ambiguous case the spec sets aside). -/
def validCamelAux : List Char → Bool
  | [] => true
  | a :: rest => alnum a && !(a.isUpper && headIsUpper rest) && validCamelAux rest

/-- A well-formed camelCase key: non-empty, ASCII alphanumeric, starting in a
lowercase letter or digit, with no adjacent uppercase letters. -/
def validCamelKey : List Char → Bool
  | [] => false
  | c :: rest => (decide (c ∈ lowerChars) || decide (c ∈ digitChars)) && validCamelAux (c :: rest)

/-- Tail-validity of a snake_case key: lowercase letters, digits and
underscores only, every underscore immediately followed by a lowercase letter
that does not itself start another underscore (inner words have at least two
characters, which is what keeps the camel image free of acronym runs). -/
def validSnakeTail : List Char → Bool
  | [] => true
  | [c] => !(c == '_') && (decide (c ∈ lowerChars) || decide (c ∈ digitChars))
  | c :: d :: t =>
      if c = '_' then decide (d ∈ lowerChars) && !headIsUnderscore t && validSnakeTail (d :: t)
      else (decide (c ∈ lowerChars) || decide (c ∈ digitChars)) && validSnakeTail (d :: t)

/-- A well-formed snake_case key: non-empty, not starting with an underscore,
and tail-valid. -/
def validSnakeKey : List Char → Bool
  | [] => false
  | c :: rest => !(c == '_') && validSnakeTail (c :: rest)

/-! ## Alternative phrasings of the key-rewrite rules, used to state the
functional-correctness claims independently of the executable definitions. -/

/-- Position-indexed phrasing of the camel → snake rule: each character is
paired with its original predecessor (`none` at position 0); an underscore is
emitted before an uppercase letter at a word transition, and every character is
lowercased. -/
def snakeRewriteSpec (l : List Char) : List Char :=
  (List.zip (none :: l.map some) l).flatMap fun p =>
    if p.2.isUpper && boundaryOk p.1 then ['_', p.2.toLower] else [p.2.toLower]

/-- The literal rule of the claim text: an underscore before *every* uppercase
letter that is not at position 0 and not already preceded by an underscore
(no exemption for a preceding uppercase letter), then lowercase. -/
def claimRuleEveryUpper (l : List Char) : List Char :=
  (List.zip (none :: l.map some) l).flatMap fun p =>
    if p.2.isUpper && (match p.1 with | none => false | some q => !(q == '_'))
    then ['_', p.2.toLower] else [p.2.toLower]

/-- Join words with single underscores: `snakeJoin [w₀, w₁, …] = w₀_w₁_…`. -/
def snakeJoin : List (List Char) → List Char
  | [] => []
  | w :: ws => w ++ ws.flatMap (fun u => '_' :: u)

/-- Uppercase the first character of a word. -/
def capFirst : List Char → List Char
  | [] => []
  | c :: t => c.toUpper :: t

/-- Glue words in camelCase: the first word kept, every later word with its
first character uppercased, no separators. -/
def joinCamel : List (List Char) → List Char
  | [] => []
  | w :: ws => w ++ (ws.map capFirst).flatten

/-! ## JSON data model

A recursive sum type over null, booleans, numbers, strings, ordered sequences
and ordered mappings (spec §3), with sequences and field lists as their own
inductives so that every function below is plain structural recursion.  A
mapping key is ordinarily text; the spec's §7 additionally names the
`MalformedKey` failure mode — a key that is not transcodable text — which the
transcoder must pass through unchanged, so keys are a sum. -/

inductive JKey where
  | text (s : String) : JKey
  | malformed (id : Nat) : JKey
deriving DecidableEq

mutual

inductive Json where
  | null : Json
  | bool (b : Bool) : Json
  | num (n : Int) : Json
  | str (s : String) : Json
  | arr (elems : JsonList) : Json
  | obj (fields : JsonFields) : Json

inductive JsonList where
  | nil : JsonList
  | cons (hd : Json) (tl : JsonList) : JsonList

inductive JsonFields where
  | nil : JsonFields
  | cons (key : JKey) (val : Json) (tl : JsonFields) : JsonFields

end

/-- A text key is rewritten with `f`; a malformed key passes through
unchanged (spec §7). -/
def rewriteKey (f : String → String) : JKey → JKey
  | .text s => .text (f s)
  | .malformed m => .malformed m

/-! ## The transcoder

Modelled from the spec (§4.1): `transcode(value, targetCase, deep)`.  A
mapping gets every key rewritten; with `deep = true` the values (and the
elements of sequences) are transcoded recursively, with `deep = false` nested
structures and sequences pass through unchanged; primitives and null are
returned unchanged.  The external `camelcase-keys` / `snakecase-keys`
packages invoked in `src/index.js` are these instances with the respective
key rewrite. -/

mutual

def transcodeV (f : String → String) (deep : Bool) : Json → Json
  | .obj kvs => .obj (transcodeF f deep kvs)
  | .arr xs => if deep then .arr (transcodeL f xs) else .arr xs
  | .null => .null
  | .bool b => .bool b
  | .num n => .num n
  | .str s => .str s

def transcodeL (f : String → String) : JsonList → JsonList
  | .nil => .nil
  | .cons x xs => .cons (transcodeV f true x) (transcodeL f xs)

def transcodeF (f : String → String) (deep : Bool) : JsonFields → JsonFields
  | .nil => .nil
  | .cons k v t =>
      .cons (rewriteKey f k) (if deep then transcodeV f true v else v) (transcodeF f deep t)

end

/-- Embedding of `camelcaseKeys(v, { deep })` used in `src/index.js` (external
package, modelled from the spec). -/
def camelcaseKeys (deep : Bool) (v : Json) : Json := transcodeV snakeToCamel deep v

/-- Embedding of `snakecaseKeys(v, { deep })` used in `src/index.js` (external
package, modelled from the spec). -/
def snakecaseKeys (deep : Bool) (v : Json) : Json := transcodeV camelToSnake deep v

/-! ## Observation functions over JSON trees -/

mutual

/-- All mapping keys, at every depth, are text keys satisfying `p`. -/
def keysValidV (p : String → Bool) : Json → Bool
  | .obj kvs => keysValidF p kvs
  | .arr xs => keysValidL p xs
  | _ => true

def keysValidL (p : String → Bool) : JsonList → Bool
  | .nil => true
  | .cons x xs => keysValidV p x && keysValidL p xs

def keysValidF (p : String → Bool) : JsonFields → Bool
  | .nil => true
  | .cons k v t =>
      (match k with | .text s => p s | .malformed _ => false)
        && keysValidV p v && keysValidF p t

end

mutual

/-- Replace every mapping key, at every depth, with a fixed dummy key: what is
left is exactly the key-independent part of the tree — the leaf values, the
sequence elements in order, and the position of every field. -/
def eraseKeysV : Json → Json
  | .obj kvs => .obj (eraseKeysF kvs)
  | .arr xs => .arr (eraseKeysL xs)
  | .null => .null
  | .bool b => .bool b
  | .num n => .num n
  | .str s => .str s

def eraseKeysL : JsonList → JsonList
  | .nil => .nil
  | .cons x xs => .cons (eraseKeysV x) (eraseKeysL xs)

def eraseKeysF : JsonFields → JsonFields
  | .nil => .nil
  | .cons _ v t => .cons (.text "") (eraseKeysV v) (eraseKeysF t)

end

mutual

/-- Every mapping key of the tree, at every depth, in traversal order. -/
def collectKeysV : Json → List JKey
  | .obj kvs => collectKeysF kvs
  | .arr xs => collectKeysL xs
  | _ => []

def collectKeysL : JsonList → List JKey
  | .nil => []
  | .cons x xs => collectKeysV x ++ collectKeysL xs

def collectKeysF : JsonFields → List JKey
  | .nil => []
  | .cons k v t => k :: (collectKeysV v ++ collectKeysF t)

end

/-- The keys of a field list, in order. -/
def fieldsKeys : JsonFields → List JKey
  | .nil => []
  | .cons k _ t => k :: fieldsKeys t

/-- The values of a field list, in order. -/
def fieldsVals : JsonFields → List Json
  | .nil => []
  | .cons _ v t => v :: fieldsVals t

/-- Concatenation of field lists. -/
def appendFields : JsonFields → JsonFields → JsonFields
  | .nil, g => g
  | .cons k v t, g => .cons k v (appendFields t g)

/-! ## The axios glue of `src/index.js`

`JSON.parse` and `JSON.stringify` belong to the excluded serialization layer,
so the embedded transforms take them as parameters. -/

/-- The pattern `needle` matches at the head of `hay`. -/
def leadMatch : List Char → List Char → Bool
  | [], _ => true
  | _ :: _, [] => false
  | a :: as, b :: bs => a == b && leadMatch as bs

/-- The pattern `needle` occurs contiguously somewhere in `hay`. -/
def hasRun (needle : List Char) : List Char → Bool
  | [] => leadMatch needle []
  | b :: bs => leadMatch needle (b :: bs) || hasRun needle bs

/-- JavaScript `hay.includes(needle)` on strings. -/
def strIncludes (hay needle : String) : Bool := hasRun needle.data hay.data

/-- The global `axios.defaults.transformResponse` entry of `src/index.js`:
`(data, headers) => { if (data && headers['content-type'].includes('application/json'))
return camelcaseKeys(JSON.parse(data), { deep: true }) }`.  The wire body
`data` is a string (empty = falsy); a fall-through returns `undefined`,
embedded as `none`. -/
def transformResponse (parse : String → Json) (data : String) (contentType : String) :
    Option Json :=
  if !(data == "") && strIncludes contentType "application/json" then
    some (camelcaseKeys true (parse data))
  else
    none

/-- JavaScript truthiness of a request body. -/
def jsTruthy : Json → Bool
  | .null => false
  | .bool b => b
  | .num n => !(n == 0)
  | .str s => !(s == "")
  | _ => true

/-- The global `axios.defaults.transformRequest` entry of `src/index.js`:
`(data, headers) => { if (data && headers['content-type'].includes('application/json'))
return JSON.stringify(snakecaseKeys(data, { deep: true })) }`.  `data` is the
request body (`none` = absent/undefined); a fall-through returns `undefined`,
embedded as `none`. -/
def transformRequest (stringify : Json → String) (data : Option Json) (contentType : String) :
    Option String :=
  match data with
  | none => none
  | some v =>
      if jsTruthy v && strIncludes contentType "application/json" then
        some (stringify (snakecaseKeys true v))
      else
        none

/-! ## The `updateUsers` action and axios config merging -/

/-- Request-body data flowing through an axios transform pipeline: a JSON
value before stringification, a wire string after. -/
inductive ReqData where
  | obj (v : Json) : ReqData
  | str (s : String) : ReqData

/-- Modelled from the spec / axios contract (the axios library is not part of
`src/`): when a request supplies its own `transformRequest` array in its
config, that array is used for the request in place of the globally installed
`axios.defaults.transformRequest`; the two are never concatenated. -/
def mergeTransformRequest (defaults : List (ReqData → ReqData))
    (perRequest : Option (List (ReqData → ReqData))) : List (ReqData → ReqData) :=
  match perRequest with
  | some ts => ts
  | none => defaults

/-- Run a transform pipeline left to right over the request body. -/
def applyTransforms (ts : List (ReqData → ReqData)) (d : ReqData) : ReqData :=
  ts.foldl (fun acc t => t acc) d

/-- The single per-request transform supplied by `updateUsers` in
`src/index.js`: `(data) => JSON.stringify(snakecaseKeys(data, { deep: true }))`
(on a string body the transcoder returns its input unchanged, so only the
stringifier acts). -/
def updateUsersTransform (stringify : Json → String) : ReqData → ReqData
  | .obj v => .str (stringify (snakecaseKeys true v))
  | .str s => .str (stringify (snakecaseKeys true (Json.str s)))

/-- The `transformRequest` array passed in the `axios.post` config by
`updateUsers`. -/
def updateUsersConfigTransforms (stringify : Json → String) : List (ReqData → ReqData) :=
  [updateUsersTransform stringify]

/-- The `{ users }` body posted by `updateUsers`. -/
def usersPayload (users : JsonList) : Json :=
  .obj (.cons (.text "users") (.arr users) .nil)

/-- JavaScript truthiness of a possibly absent request body. -/
def optTruthy : Option Json → Bool
  | none => false
  | some v => jsTruthy v

/-- A concrete stand-in parser, used to instantiate closed statements. -/
def parseNull : String → Json := fun _ => Json.null

/-- A concrete stand-in stringifier, used to instantiate closed statements. -/
def stringifyEmpty : Json → String := fun _ => ""




/-! ## Character-level facts, established by evaluation over the tables -/

theorem upperChars_facts : ∀ c ∈ upperChars,
    c.isUpper = true ∧ c.toLower ∈ lowerChars ∧ c.toLower.toUpper = c ∧ c ≠ '_' := by
  decide

theorem lowerChars_facts : ∀ c ∈ lowerChars,
    c.isUpper = false ∧ c.toLower = c ∧ c.toUpper.isUpper = true ∧
      c.toUpper.toLower = c ∧ c.toUpper ≠ '_' ∧ c ≠ '_' := by
  decide

theorem digitChars_facts : ∀ c ∈ digitChars,
    c.isUpper = false ∧ c.toLower = c ∧ c ≠ '_' := by
  decide

/-! ## String-level lemmas -/

/-- The function `csAux` computes the position-indexed rewrite rule. -/
theorem csAux_eq_snakeRewrite : ∀ (l : List Char) (prev : Option Char),
    csAux prev l = (List.zip (prev :: l.map some) l).flatMap
      (fun p => if p.2.isUpper && boundaryOk p.1 then ['_', p.2.toLower] else [p.2.toLower])
  | [], _ => rfl
  | c :: rest, prev => by
      simp only [csAux, List.map_cons, List.zip_cons_cons, List.flatMap_cons]
      rw [csAux_eq_snakeRewrite rest (some c)]


/-- Unpack the alphanumeric test into table membership. -/
theorem alnum_split {c : Char} (h : alnum c = true) :
    c ∈ lowerChars ∨ c ∈ upperChars ∨ c ∈ digitChars := by
  simpa [alnum, decide_eq_true_eq, or_assoc] using h

/-- Unpack a lowercase-or-digit test into table membership. -/
theorem lowdig_split {c : Char} (h : (decide (c ∈ lowerChars) || decide (c ∈ digitChars)) = true) :
    c ∈ lowerChars ∨ c ∈ digitChars := by
  simpa [decide_eq_true_eq] using h

/-- A lowercase letter or digit is not uppercase, is its own lowercasing, and
is not an underscore. -/
theorem lowdig_facts {c : Char} (h : c ∈ lowerChars ∨ c ∈ digitChars) :
    c.isUpper = false ∧ c.toLower = c ∧ c ≠ '_' := by
  rcases h with h | h
  · exact ⟨(lowerChars_facts c h).1, (lowerChars_facts c h).2.1,
      (lowerChars_facts c h).2.2.2.2.2⟩
  · exact ⟨(digitChars_facts c h).1, (digitChars_facts c h).2.1, (digitChars_facts c h).2.2⟩

/-- An uppercase alphanumeric character is in the uppercase table. -/
theorem upper_of_alnum {c : Char} (ha : alnum c = true) (hu : c.isUpper = true) :
    c ∈ upperChars := by
  rcases alnum_split ha with h | h | h
  · rw [(lowerChars_facts c h).1] at hu; exact absurd hu (by simp)
  · exact h
  · rw [(digitChars_facts c h).1] at hu; exact absurd hu (by simp)

/-- A non-uppercase alphanumeric character is a lowercase letter or digit. -/
theorem lowdig_of_alnum {c : Char} (ha : alnum c = true) (hu : c.isUpper = false) :
    c ∈ lowerChars ∨ c ∈ digitChars := by
  rcases alnum_split ha with h | h | h
  · exact Or.inl h
  · rw [(upperChars_facts c h).1] at hu; exact absurd hu (by simp)
  · exact Or.inr h

/-- An alphanumeric character is never an underscore. -/
theorem alnum_ne_underscore {c : Char} (ha : alnum c = true) : c ≠ '_' := by
  rcases alnum_split ha with h | h | h
  · exact (lowerChars_facts c h).2.2.2.2.2
  · exact (upperChars_facts c h).2.2.2
  · exact (digitChars_facts c h).2.2

/-- Componentwise reading of `validCamelAux` at a cons. -/
theorem validCamelAux_cons {a : Char} {l : List Char} (h : validCamelAux (a :: l) = true) :
    alnum a = true ∧ (a.isUpper = true → headIsUpper l = false) ∧ validCamelAux l = true := by
  simp only [validCamelAux, Bool.and_eq_true] at h
  refine ⟨h.1.1, fun hu => ?_, h.2⟩
  have := h.1.2
  rw [hu] at this
  simpa using this

/-- The function `scAux` leaves a non-underscore head in place. -/
theorem scAux_cons_ne {c : Char} (X : List Char) (h : c ≠ '_') :
    scAux (c :: X) = c :: scAux X := by
  cases X <;> simp [scAux, h]

/-- The function `scAux` turns an underscore followed by a non-underscore into the
uppercased follower. -/
theorem scAux_underscore_cons {d : Char} (X : List Char) (hd : d ≠ '_') :
    scAux ('_' :: d :: X) = d.toUpper :: scAux X := by
  simp [scAux, hd]

/-- Unfolding of `csAux` at a word boundary. -/
theorem csAux_cons_pos {p : Option Char} {c : Char} (l : List Char)
    (h : (c.isUpper && boundaryOk p) = true) :
    csAux p (c :: l) = '_' :: c.toLower :: csAux (some c) l := by
  simp [csAux, h]

/-- Unfolding of `csAux` away from a word boundary. -/
theorem csAux_cons_neg {p : Option Char} {c : Char} (l : List Char)
    (h : (c.isUpper && boundaryOk p) = false) :
    csAux p (c :: l) = c.toLower :: csAux (some c) l := by
  simp [csAux, h]

/-- Round trip, camel side: `scAux` undoes `csAux` on an alphanumeric key
with no adjacent uppercase letters, given any alphanumeric predecessor. -/
theorem scAux_csAux : ∀ (l : List Char) (p : Char), validCamelAux (p :: l) = true →
    scAux (csAux (some p) l) = l
  | [], _, _ => rfl
  | c :: rest, p, h => by
      obtain ⟨hp, hpimp, hrest⟩ := validCamelAux_cons h
      obtain ⟨hc, _, _⟩ := validCamelAux_cons hrest
      cases hcu : c.isUpper with
      | true =>
        have hcU : c ∈ upperChars := upper_of_alnum hc hcu
        have hpU : p.isUpper = false := by
          cases hpu : p.isUpper with
          | false => rfl
          | true =>
            have h3 : c.isUpper = false := by simpa [headIsUpper] using hpimp hpu
            rw [hcu] at h3
            simp at h3
        have hb : (c.isUpper && boundaryOk (some p)) = true := by
          simp [boundaryOk, hcu, hpU, alnum_ne_underscore hp]
        rw [csAux_cons_pos _ hb]
        rw [scAux_underscore_cons _ (lowerChars_facts _ (upperChars_facts c hcU).2.1).2.2.2.2.2]
        rw [(upperChars_facts c hcU).2.2.1, scAux_csAux rest c hrest]
      | false =>
        have hb : (c.isUpper && boundaryOk (some p)) = false := by simp [hcu]
        have hcl := lowdig_of_alnum hc hcu
        rw [csAux_cons_neg _ hb, (lowdig_facts hcl).2.1, scAux_cons_ne _ (lowdig_facts hcl).2.2]
        rw [scAux_csAux rest c hrest]

/-- Round trip, camel side, lifted to strings: converting a well-formed
camelCase key to snake_case and back restores it. -/
theorem snakeToCamel_camelToSnake {s : String} (h : validCamelKey s.data = true) :
    snakeToCamel (camelToSnake s) = s := by
  cases s with
  | mk l =>
    cases l with
    | nil => exact absurd h (by simp [validCamelKey])
    | cons c rest =>
      simp only [validCamelKey, Bool.and_eq_true] at h
      obtain ⟨hc, haux⟩ := h
      have hfacts := lowdig_facts (lowdig_split hc)
      have hb : (c.isUpper && boundaryOk none) = false := by simp [boundaryOk]
      show snakeToCamel ⟨csAux none (c :: rest)⟩ = ⟨c :: rest⟩
      rw [csAux_cons_neg _ hb, hfacts.2.1]
      show (⟨snakeToCamelList (c :: csAux (some c) rest)⟩ : String) = ⟨c :: rest⟩
      rw [snakeToCamelList, List.dropWhile_cons_of_neg (by simpa using hfacts.2.2)]
      rw [scAux_cons_ne _ hfacts.2.2, scAux_csAux rest c haux]

/-- Componentwise reading of `validSnakeTail` at a non-underscore head. -/
theorem validSnakeTail_cons_ne {c : Char} {l : List Char} (hc : c ≠ '_')
    (h : validSnakeTail (c :: l) = true) :
    (c ∈ lowerChars ∨ c ∈ digitChars) ∧ validSnakeTail l = true := by
  cases l with
  | nil =>
    simp only [validSnakeTail, Bool.and_eq_true] at h
    exact ⟨lowdig_split h.2, rfl⟩
  | cons d t =>
    simp only [validSnakeTail, if_neg hc, Bool.and_eq_true] at h
    exact ⟨lowdig_split h.1, h.2⟩

/-- Componentwise reading of `validSnakeTail` at an underscore. -/
theorem validSnakeTail_underscore {d : Char} {t : List Char}
    (h : validSnakeTail ('_' :: d :: t) = true) :
    d ∈ lowerChars ∧ headIsUnderscore t = false ∧ validSnakeTail (d :: t) = true := by
  simp only [validSnakeTail, if_true] at h
  simp only [Bool.and_eq_true, Bool.not_eq_true', decide_eq_true_eq] at h
  exact ⟨h.1.1, h.1.2, h.2⟩

/-- Round trip, snake side: `csAux` undoes `scAux` on a tail-valid snake_case
key, given any non-underscore predecessor that, when uppercase, is not
immediately followed by an underscore. -/
theorem csAux_scAux : ∀ (l : List Char) (p : Char), p ≠ '_' →
    (p.isUpper = true → headIsUnderscore l = false) → validSnakeTail l = true →
    csAux (some p) (scAux l) = l
  | [], _, _, _, _ => rfl
  | [c], p, hp, _, h => by
      by_cases hc : c = '_'
      · subst hc
        exact absurd h (by simp [validSnakeTail])
      · obtain ⟨hcl, -⟩ := validSnakeTail_cons_ne hc h
        rw [scAux_cons_ne _ hc]
        have hb : (c.isUpper && boundaryOk (some p)) = false := by
          simp [(lowdig_facts hcl).1]
        rw [show scAux ([] : List Char) = [] from rfl]
        rw [csAux_cons_neg _ hb, (lowdig_facts hcl).2.1]
        rfl
  | c :: d :: t, p, hp, hpimp, h => by
      by_cases hc : c = '_'
      · subst hc
        obtain ⟨hdl, hht, hdt⟩ := validSnakeTail_underscore h
        have hd_ne : d ≠ '_' := (lowerChars_facts d hdl).2.2.2.2.2
        rw [scAux_underscore_cons _ hd_ne]
        have hpU : p.isUpper = false := by
          cases hpu2 : p.isUpper with
          | false => rfl
          | true =>
            have h4 := hpimp hpu2
            simp [headIsUnderscore] at h4
        have hb : ((d.toUpper).isUpper && boundaryOk (some p)) = true := by
          simp [boundaryOk, (lowerChars_facts d hdl).2.2.1, hpU, hp]
        rw [csAux_cons_pos _ hb, (lowerChars_facts d hdl).2.2.2.1]
        have hvt : validSnakeTail t = true := (validSnakeTail_cons_ne hd_ne hdt).2
        rw [csAux_scAux t d.toUpper (lowerChars_facts d hdl).2.2.2.2.1 (fun _ => hht) hvt]
      · obtain ⟨hcl, hrest⟩ := validSnakeTail_cons_ne hc h
        rw [scAux_cons_ne _ hc]
        have hb : (c.isUpper && boundaryOk (some p)) = false := by
          simp [(lowdig_facts hcl).1]
        rw [csAux_cons_neg _ hb, (lowdig_facts hcl).2.1]
        have hcu : c.isUpper = false := (lowdig_facts hcl).1
        rw [csAux_scAux (d :: t) c (lowdig_facts hcl).2.2
          (fun h5 => absurd h5 (by simp [hcu])) hrest]

/-- Round trip, snake side, lifted to strings: converting a well-formed
snake_case key to camelCase and back restores it. -/
theorem camelToSnake_snakeToCamel {s : String} (h : validSnakeKey s.data = true) :
    camelToSnake (snakeToCamel s) = s := by
  cases s with
  | mk l =>
    cases l with
    | nil => exact absurd h (by simp [validSnakeKey])
    | cons c rest =>
      simp only [validSnakeKey, Bool.and_eq_true, Bool.not_eq_true', beq_eq_false_iff_ne] at h
      obtain ⟨hc, hvt⟩ := h
      obtain ⟨hcl, hrest⟩ := validSnakeTail_cons_ne hc hvt
      show camelToSnake ⟨snakeToCamelList (c :: rest)⟩ = ⟨c :: rest⟩
      rw [snakeToCamelList, List.dropWhile_cons_of_neg (by simpa using hc)]
      rw [scAux_cons_ne _ hc]
      show (⟨csAux none (c :: scAux rest)⟩ : String) = ⟨c :: rest⟩
      have hb : (c.isUpper && boundaryOk none) = false := by simp [boundaryOk]
      rw [csAux_cons_neg _ hb, (lowdig_facts hcl).2.1]
      have hcu : c.isUpper = false := (lowdig_facts hcl).1
      rw [csAux_scAux rest c (lowdig_facts hcl).2.2
        (fun h5 => absurd h5 (by simp [hcu])) hrest]

/-- The function `scAux` copies an underscore-free block verbatim. -/
theorem scAux_nounderscore_append : ∀ (w l : List Char), '_' ∉ w →
    scAux (w ++ l) = w ++ scAux l
  | [], _, _ => rfl
  | c :: w, l, h => by
      have hc : c ≠ '_' := fun e => h (by rw [e]; exact List.mem_cons_self _ _)
      rw [List.cons_append, scAux_cons_ne _ hc,
        scAux_nounderscore_append w l (fun hm => h (List.mem_cons_of_mem _ hm))]
      rfl

/-- The function `scAux` is the identity on an underscore-free list. -/
theorem scAux_nounderscore (w : List Char) (h : '_' ∉ w) : scAux w = w := by
  have h2 := scAux_nounderscore_append w [] h
  simpa [scAux] using h2

/-- The function `scAux` capitalizes the word after an underscore and copies its tail. -/
theorem scAux_underscore_word {w : List Char} (l : List Char) (hw : w ≠ [])
    (h : '_' ∉ w) : scAux ('_' :: (w ++ l)) = capFirst w ++ scAux l := by
  cases w with
  | nil => exact absurd rfl hw
  | cons c t =>
    have hc : c ≠ '_' := fun e => h (by rw [e]; exact List.mem_cons_self _ _)
    rw [List.cons_append, scAux_underscore_cons _ hc, capFirst, List.cons_append]
    rw [scAux_nounderscore_append t l (fun hm => h (List.mem_cons_of_mem _ hm))]

/-- The function `scAux` converts an underscore-prefixed word sequence to the capitalized
concatenation. -/
theorem scAux_flatMap_words : ∀ (ws : List (List Char)),
    (∀ w ∈ ws, w ≠ [] ∧ '_' ∉ w) →
    scAux (ws.flatMap (fun u => '_' :: u)) = (ws.map capFirst).flatten
  | [], _ => rfl
  | w :: ws, h => by
      rw [List.flatMap_cons, List.map_cons, List.flatten_cons]
      have hw := h w (List.mem_cons_self _ _)
      rw [show ('_' :: w) ++ ws.flatMap (fun u => '_' :: u)
            = '_' :: (w ++ ws.flatMap (fun u => '_' :: u)) from rfl]
      rw [scAux_underscore_word _ hw.1 hw.2]
      rw [scAux_flatMap_words ws (fun u hu => h u (List.mem_cons_of_mem _ hu))]

/-- The snake → camel rewrite on a join of nonempty underscore-free words:
the first word is kept, every later word loses its underscore and gains a
capital initial. -/
theorem snakeToCamelList_join (ws : List (List Char))
    (h : ∀ w ∈ ws, w ≠ [] ∧ '_' ∉ w) :
    snakeToCamelList (snakeJoin ws) = joinCamel ws := by
  cases ws with
  | nil => rfl
  | cons w rest =>
    have hw := h w (List.mem_cons_self _ _)
    rw [snakeJoin, joinCamel, snakeToCamelList]
    cases w with
    | nil => exact absurd rfl hw.1
    | cons c t =>
      have hc : c ≠ '_' := fun e => hw.2 (by rw [e]; exact List.mem_cons_self _ _)
      rw [List.cons_append, List.dropWhile_cons_of_neg (by simpa using hc)]
      rw [show (c :: (t ++ rest.flatMap (fun u => '_' :: u)))
            = (c :: t) ++ rest.flatMap (fun u => '_' :: u) from rfl]
      rw [scAux_nounderscore_append _ _ hw.2]
      rw [scAux_flatMap_words rest (fun u hu => h u (List.mem_cons_of_mem _ hu))]

/-- A trailing underscore never changes the output of `scAux`. -/
theorem scAux_append_underscore : ∀ (m : List Char), scAux (m ++ ['_']) = scAux m
  | [] => by simp [scAux]
  | [c] => by
      by_cases hc : c = '_'
      · subst hc; simp [scAux]
      · rw [List.cons_append, List.nil_append, scAux_cons_ne _ hc, scAux_cons_ne _ hc]
        simp [scAux]
  | c :: d :: t => by
      by_cases hc : c = '_'
      · subst hc
        by_cases hd : d = '_'
        · subst hd
          rw [show ('_' :: '_' :: t) ++ ['_'] = '_' :: (('_' :: t) ++ ['_']) from rfl]
          rw [show scAux ('_' :: (('_' :: t) ++ ['_'])) = scAux (('_' :: t) ++ ['_']) from by
            simp [scAux]]
          rw [scAux_append_underscore ('_' :: t)]
          simp [scAux]
        · rw [show ('_' :: d :: t) ++ ['_'] = '_' :: d :: (t ++ ['_']) from rfl]
          rw [scAux_underscore_cons _ hd, scAux_underscore_cons _ hd,
            scAux_append_underscore t]
      · rw [show (c :: d :: t) ++ ['_'] = c :: ((d :: t) ++ ['_']) from rfl]
        rw [scAux_cons_ne _ hc, scAux_cons_ne _ hc, scAux_append_underscore (d :: t)]

/-- Dropping leading underscores commutes with adding a trailing one. -/
theorem dropWhile_append_underscore : ∀ (l : List Char),
    (l ++ ['_']).dropWhile (fun c => c == '_')
      = if (l.dropWhile (fun c => c == '_')).isEmpty then []
        else l.dropWhile (fun c => c == '_') ++ ['_']
  | [] => by simp
  | c :: t => by
      by_cases hc : c = '_'
      · subst hc
        rw [List.cons_append, List.dropWhile_cons_of_pos (by simp),
          List.dropWhile_cons_of_pos (by simp)]
        exact dropWhile_append_underscore t
      · rw [List.cons_append, List.dropWhile_cons_of_neg (by simpa using hc),
          List.dropWhile_cons_of_neg (by simpa using hc)]
        simp

/-- A leading underscore is stripped and ignored by the snake → camel
rewrite. -/
theorem snakeToCamelList_leading (l : List Char) :
    snakeToCamelList ('_' :: l) = snakeToCamelList l := by
  simp only [snakeToCamelList]
  rw [List.dropWhile_cons_of_pos (by simp)]

/-- A trailing underscore is stripped and ignored by the snake → camel
rewrite. -/
theorem snakeToCamelList_trailing (l : List Char) :
    snakeToCamelList (l ++ ['_']) = snakeToCamelList l := by
  simp only [snakeToCamelList]
  rw [dropWhile_append_underscore l]
  by_cases he : (l.dropWhile (fun c => c == '_')).isEmpty
  · rw [if_pos he]
    rw [List.isEmpty_iff] at he
    rw [he]
  · rw [if_neg he, scAux_append_underscore]

/-! ## Tree-level lemmas -/

mutual

/-- Deep transcoding twice with pointwise-inverse key rewrites restores a
value whose keys are all text keys satisfying `p`. -/
theorem transcode_transcode_V (f g : String → String) (p : String → Bool)
    (hfg : ∀ s, p s = true → g (f s) = s) :
    ∀ v, keysValidV p v = true → transcodeV g true (transcodeV f true v) = v
  | .null, _ => rfl
  | .bool _, _ => rfl
  | .num _, _ => rfl
  | .str _, _ => rfl
  | .arr xs, h => by
      show Json.arr (transcodeL g (transcodeL f xs)) = Json.arr xs
      rw [transcode_transcode_L f g p hfg xs h]
  | .obj kvs, h => by
      show Json.obj (transcodeF g true (transcodeF f true kvs)) = Json.obj kvs
      rw [transcode_transcode_F f g p hfg kvs h]

theorem transcode_transcode_L (f g : String → String) (p : String → Bool)
    (hfg : ∀ s, p s = true → g (f s) = s) :
    ∀ xs, keysValidL p xs = true → transcodeL g (transcodeL f xs) = xs
  | .nil, _ => rfl
  | .cons x xs, h => by
      have h2 : keysValidV p x = true ∧ keysValidL p xs = true := by
        simpa [keysValidL, Bool.and_eq_true] using h
      show JsonList.cons (transcodeV g true (transcodeV f true x))
        (transcodeL g (transcodeL f xs)) = JsonList.cons x xs
      rw [transcode_transcode_V f g p hfg x h2.1, transcode_transcode_L f g p hfg xs h2.2]

theorem transcode_transcode_F (f g : String → String) (p : String → Bool)
    (hfg : ∀ s, p s = true → g (f s) = s) :
    ∀ kvs, keysValidF p kvs = true → transcodeF g true (transcodeF f true kvs) = kvs
  | .nil, _ => rfl
  | .cons k v t, h => by
      cases k with
      | malformed m => exact absurd h (by simp [keysValidF])
      | text s =>
        have h2 : p s = true ∧ keysValidV p v = true ∧ keysValidF p t = true := by
          simpa [keysValidF, Bool.and_eq_true, and_assoc] using h
        obtain ⟨hk, hv, ht⟩ := h2
        show JsonFields.cons (rewriteKey g (rewriteKey f (.text s)))
          (transcodeV g true (transcodeV f true v)) (transcodeF g true (transcodeF f true t))
          = JsonFields.cons (.text s) v t
        rw [transcode_transcode_V f g p hfg v hv, transcode_transcode_F f g p hfg t ht]
        show JsonFields.cons (JKey.text (g (f s))) v t = JsonFields.cons (.text s) v t
        rw [hfg s hk]

end

mutual

/-- Deep transcoding never changes the key-erased skeleton of a value: all
leaves, all sequence elements in order, and the position of every field
survive untouched. -/
theorem eraseKeys_transcode_V (f : String → String) :
    ∀ v, eraseKeysV (transcodeV f true v) = eraseKeysV v
  | .null => rfl
  | .bool _ => rfl
  | .num _ => rfl
  | .str _ => rfl
  | .arr xs => by
      show Json.arr (eraseKeysL (transcodeL f xs)) = Json.arr (eraseKeysL xs)
      rw [eraseKeys_transcode_L f xs]
  | .obj kvs => by
      show Json.obj (eraseKeysF (transcodeF f true kvs)) = Json.obj (eraseKeysF kvs)
      rw [eraseKeys_transcode_F f kvs]

theorem eraseKeys_transcode_L (f : String → String) :
    ∀ xs, eraseKeysL (transcodeL f xs) = eraseKeysL xs
  | .nil => rfl
  | .cons x xs => by
      show JsonList.cons (eraseKeysV (transcodeV f true x)) (eraseKeysL (transcodeL f xs))
        = JsonList.cons (eraseKeysV x) (eraseKeysL xs)
      rw [eraseKeys_transcode_V f x, eraseKeys_transcode_L f xs]

theorem eraseKeys_transcode_F (f : String → String) :
    ∀ kvs, eraseKeysF (transcodeF f true kvs) = eraseKeysF kvs
  | .nil => rfl
  | .cons k v t => by
      show JsonFields.cons (.text "") (eraseKeysV (transcodeV f true v))
        (eraseKeysF (transcodeF f true t))
        = JsonFields.cons (.text "") (eraseKeysV v) (eraseKeysF t)
      rw [eraseKeys_transcode_V f v, eraseKeys_transcode_F f t]

end

mutual

/-- Deep transcoding rewrites the key list, at every depth and in traversal
order, by exactly the key rewrite. -/
theorem collectKeys_transcode_V (f : String → String) :
    ∀ v, collectKeysV (transcodeV f true v) = (collectKeysV v).map (rewriteKey f)
  | .null => rfl
  | .bool _ => rfl
  | .num _ => rfl
  | .str _ => rfl
  | .arr xs => by
      show collectKeysL (transcodeL f xs) = (collectKeysL xs).map (rewriteKey f)
      exact collectKeys_transcode_L f xs
  | .obj kvs => by
      show collectKeysF (transcodeF f true kvs) = (collectKeysF kvs).map (rewriteKey f)
      exact collectKeys_transcode_F f kvs

theorem collectKeys_transcode_L (f : String → String) :
    ∀ xs, collectKeysL (transcodeL f xs) = (collectKeysL xs).map (rewriteKey f)
  | .nil => rfl
  | .cons x xs => by
      show collectKeysV (transcodeV f true x) ++ collectKeysL (transcodeL f xs)
        = (collectKeysV x ++ collectKeysL xs).map (rewriteKey f)
      rw [collectKeys_transcode_V f x, collectKeys_transcode_L f xs, List.map_append]

theorem collectKeys_transcode_F (f : String → String) :
    ∀ kvs, collectKeysF (transcodeF f true kvs) = (collectKeysF kvs).map (rewriteKey f)
  | .nil => rfl
  | .cons k v t => by
      show rewriteKey f k :: (collectKeysV (transcodeV f true v)
          ++ collectKeysF (transcodeF f true t))
        = (k :: (collectKeysV v ++ collectKeysF t)).map (rewriteKey f)
      rw [collectKeys_transcode_V f v, collectKeys_transcode_F f t, List.map_cons,
        List.map_append]

end

/-- Transcoding rewrites the top-level key list by the key rewrite, at either
depth setting. -/
theorem fieldsKeys_transcodeF (f : String → String) (deep : Bool) :
    ∀ kvs, fieldsKeys (transcodeF f deep kvs) = (fieldsKeys kvs).map (rewriteKey f)
  | .nil => rfl
  | .cons k v t => by
      show rewriteKey f k :: fieldsKeys (transcodeF f deep t)
        = (k :: fieldsKeys t).map (rewriteKey f)
      rw [fieldsKeys_transcodeF f deep t, List.map_cons]

/-- Shallow transcoding leaves every top-level value untouched. -/
theorem fieldsVals_transcodeF_shallow (f : String → String) :
    ∀ kvs, fieldsVals (transcodeF f false kvs) = fieldsVals kvs
  | .nil => rfl
  | .cons k v t => by
      show (if false then transcodeV f true v else v) :: fieldsVals (transcodeF f false t)
        = v :: fieldsVals t
      rw [fieldsVals_transcodeF_shallow f t]
      rfl

/-- Transcoding a field list distributes over concatenation. -/
theorem transcodeF_appendFields (f : String → String) (deep : Bool) :
    ∀ a b, transcodeF f deep (appendFields a b)
      = appendFields (transcodeF f deep a) (transcodeF f deep b)
  | .nil, _ => rfl
  | .cons k v t, b => by
      show JsonFields.cons (rewriteKey f k) (if deep then transcodeV f true v else v)
          (transcodeF f deep (appendFields t b))
        = JsonFields.cons (rewriteKey f k) (if deep then transcodeV f true v else v)
          (appendFields (transcodeF f deep t) (transcodeF f deep b))
      rw [transcodeF_appendFields f deep t b]

/-- The camelCase → snake_case rewrite agrees with its position-indexed
phrasing on every string. -/
theorem camelToSnake_eq_spec (s : String) : camelToSnake s = ⟨snakeRewriteSpec s.data⟩ :=
  congrArg String.mk (csAux_eq_snakeRewrite s.data none)

/-! ## Claim theorems -/

/-- C1.  For every JSON value whose mapping keys at every depth are text keys
that are valid camelCase — ASCII letters/digits, not starting uppercase, and,
setting aside exactly the acronym-collapse ambiguity of keys such as `userID`,
containing no adjacent uppercase letters — transcoding to snake_case with
`deep = true` and back to camelCase with `deep = true` restores the value, in
particular its key set; and symmetrically for values whose keys are valid
snake_case (every underscore internal, followed by a lowercase letter, inner
words of at least two characters — again exactly the acronym-ambiguous keys
such as `user_i_d` are set aside). -/
theorem claim_C1_roundtrip (v : Json) :
    (keysValidV (fun s => validCamelKey s.data) v = true →
      camelcaseKeys true (snakecaseKeys true v) = v)
    ∧ (keysValidV (fun s => validSnakeKey s.data) v = true →
      snakecaseKeys true (camelcaseKeys true v) = v) := by
  constructor
  · intro h
    exact transcode_transcode_V camelToSnake snakeToCamel _
      (fun s hs => snakeToCamel_camelToSnake hs) v h
  · intro h
    exact transcode_transcode_V snakeToCamel camelToSnake _
      (fun s hs => camelToSnake_snakeToCamel hs) v h

/-- Witness for C1 at a concrete two-level value in each direction. -/
theorem claim_C1_roundtrip_witness :
    (keysValidV (fun s => validCamelKey s.data)
        (Json.obj (.cons (.text "firstName") (.str "Alice")
          (.cons (.text "bestFriend") (Json.obj (.cons (.text "lastName")
            (.str "Smith") .nil)) .nil))) = true
      ∧ camelcaseKeys true (snakecaseKeys true
          (Json.obj (.cons (.text "firstName") (.str "Alice")
            (.cons (.text "bestFriend") (Json.obj (.cons (.text "lastName")
              (.str "Smith") .nil)) .nil))))
        = Json.obj (.cons (.text "firstName") (.str "Alice")
            (.cons (.text "bestFriend") (Json.obj (.cons (.text "lastName")
              (.str "Smith") .nil)) .nil)))
    ∧ (keysValidV (fun s => validSnakeKey s.data)
        (Json.obj (.cons (.text "first_name") (.str "Bob") .nil)) = true
      ∧ snakecaseKeys true (camelcaseKeys true
          (Json.obj (.cons (.text "first_name") (.str "Bob") .nil)))
        = Json.obj (.cons (.text "first_name") (.str "Bob") .nil)) :=
  ⟨⟨by decide, (claim_C1_roundtrip _).1 (by decide)⟩,
   ⟨by decide, (claim_C1_roundtrip _).2 (by decide)⟩⟩

/-- C2.  Deep transcoding, to either target case, is a structural map: the
key-erased skeleton — every string/number/boolean/null leaf, the order of
every sequence, and the position of every mapping entry — is exactly
preserved; only mapping keys change. -/
theorem claim_C2_structural_map (v : Json) :
    eraseKeysV (camelcaseKeys true v) = eraseKeysV v
    ∧ eraseKeysV (snakecaseKeys true v) = eraseKeysV v :=
  ⟨eraseKeys_transcode_V snakeToCamel v, eraseKeys_transcode_V camelToSnake v⟩

/-- C3 counterexample.  The claim's literal rule — an underscore before
*every* uppercase letter not at position 0 and not already preceded by an
underscore — would send `userID` to `user_i_d`, but the rewrite (per the
spec's single-underscore-per-transition mandate, and per the claim's own
example) sends it to `user_id`. -/
theorem claim_C3_counterexample :
    camelToSnake "userID" = "user_id"
    ∧ (⟨claimRuleEveryUpper "userID".data⟩ : String) = "user_i_d"
    ∧ camelToSnake "userID" ≠ (⟨claimRuleEveryUpper "userID".data⟩ : String) :=
  ⟨by decide, by decide, by decide⟩

/-- C3 as amended.  The camelCase → snake_case rewrite inserts an underscore
before every uppercase letter that is not at position 0, not already preceded
by an underscore, and not preceded by another uppercase letter (so an acronym
run collapses after a single underscore), then lowercases the entire key;
`firstName` maps to `first_name` and `userID` maps to `user_id`. -/
theorem claim_C3_camel_to_snake_rule :
    (∀ s : String, camelToSnake s = ⟨snakeRewriteSpec s.data⟩)
    ∧ camelToSnake "firstName" = "first_name"
    ∧ camelToSnake "userID" = "user_id" :=
  ⟨camelToSnake_eq_spec, by decide, by decide⟩

/-- C4.  On every snake_case key — a join of nonempty underscore-free words
by single underscores — the snake_case → camelCase rewrite removes every
underscore and uppercases the letter immediately following it; keys with
leading or trailing underscores do not crash the (total) transcoder, those
underscores are stripped and ignored. -/
theorem claim_C4_snake_to_camel_rule :
    (∀ ws : List (List Char), (∀ w ∈ ws, w ≠ [] ∧ '_' ∉ w) →
      snakeToCamelList (snakeJoin ws) = joinCamel ws)
    ∧ (∀ l : List Char, snakeToCamelList ('_' :: l) = snakeToCamelList l)
    ∧ (∀ l : List Char, snakeToCamelList (l ++ ['_']) = snakeToCamelList l)
    ∧ snakeToCamel "first_name" = "firstName" :=
  ⟨snakeToCamelList_join, snakeToCamelList_leading, snakeToCamelList_trailing, by decide⟩

/-- Witness for C4 on the two-word key `user_ids`. -/
theorem claim_C4_snake_to_camel_rule_witness :
    (∀ w ∈ [['u', 's', 'e', 'r'], ['i', 'd', 's']], w ≠ [] ∧ '_' ∉ w)
    ∧ snakeToCamelList (snakeJoin [['u', 's', 'e', 'r'], ['i', 'd', 's']])
        = joinCamel [['u', 's', 'e', 'r'], ['i', 'd', 's']] :=
  ⟨by decide, claim_C4_snake_to_camel_rule.1 _ (by decide)⟩

/-- C5 counterexample.  The transcoder is *not* applied if and only if the
content type indicates JSON: a response with JSON content type but empty
(falsy) data is not transcoded — the transform falls through to
`undefined`. -/
theorem claim_C5_counterexample :
    ¬ ((transformResponse parseNull "" "application/json"
          = some (camelcaseKeys true (parseNull "")))
        ↔ strIncludes "application/json" "application/json" = true) := by
  intro h
  have h2 := h.mpr (by decide)
  exact Option.noConfusion h2

/-- C5 as amended.  The camelCase transcoder is applied to the parsed
response body if and only if the data is truthy (non-empty) *and* the
declared content type includes `application/json`; in particular a response
whose content type is not JSON is never transcoded (the transform returns
`undefined`). -/
theorem claim_C5_content_type_gate (parse : String → Json) (data contentType : String) :
    (transformResponse parse data contentType = some (camelcaseKeys true (parse data))
      ↔ (data ≠ "" ∧ strIncludes contentType "application/json" = true))
    ∧ (strIncludes contentType "application/json" = false →
        transformResponse parse data contentType = none) := by
  constructor
  · constructor
    · intro h
      by_cases hc : (!(data == "") && strIncludes contentType "application/json") = true
      · have h3 := hc
        simp only [Bool.and_eq_true, Bool.not_eq_true', beq_eq_false_iff_ne] at h3
        exact h3
      · rw [transformResponse, if_neg (by simpa using hc)] at h
        exact absurd h (by simp)
    · intro h
      rw [transformResponse, if_pos]
      simp only [Bool.and_eq_true, Bool.not_eq_true', beq_eq_false_iff_ne]
      exact h
  · intro h
    rw [transformResponse, if_neg]
    rw [h]
    simp

/-- Witness for C5 (amended): a non-JSON content type yields `undefined`. -/
theorem claim_C5_content_type_gate_witness :
    strIncludes "text/html" "application/json" = false
    ∧ transformResponse parseNull "x" "text/html" = none :=
  ⟨by decide, (claim_C5_content_type_gate parseNull "x" "text/html").2 (by decide)⟩

/-- C6.  With `deep = false` only top-level mapping keys are rewritten —
top-level values (hence every nested key) and sequences pass through
untouched; with `deep = true` the keys at all depths are rewritten (the
key list at every depth is mapped by the key rewrite); primitives and null
are returned unchanged in both modes. -/
theorem claim_C6_depth (f : String → String) (v : Json) (kvs : JsonFields)
    (xs : JsonList) (b : Bool) (n : Int) (s : String) :
    transcodeV f false (Json.obj kvs) = Json.obj (transcodeF f false kvs)
    ∧ fieldsKeys (transcodeF f false kvs) = (fieldsKeys kvs).map (rewriteKey f)
    ∧ fieldsVals (transcodeF f false kvs) = fieldsVals kvs
    ∧ transcodeV f false (Json.arr xs) = Json.arr xs
    ∧ collectKeysV (transcodeV f true v) = (collectKeysV v).map (rewriteKey f)
    ∧ (∀ deep : Bool, transcodeV f deep Json.null = Json.null
        ∧ transcodeV f deep (Json.bool b) = Json.bool b
        ∧ transcodeV f deep (Json.num n) = Json.num n
        ∧ transcodeV f deep (Json.str s) = Json.str s) :=
  ⟨rfl, fieldsKeys_transcodeF f false kvs, fieldsVals_transcodeF_shallow f kvs, rfl,
    collectKeys_transcode_V f v, fun _ => ⟨rfl, rfl, rfl, rfl⟩⟩

/-- C7.  The two concrete cases of the spec: a deep camelCase transcode of
`{ "first_name": "Alice", "friends": [{ "last_name": "Smith" }] }` and a deep
snake_case transcode of `{ "firstName": "Bob" }`. -/
theorem claim_C7_concrete :
    camelcaseKeys true (Json.obj (.cons (.text "first_name") (.str "Alice")
        (.cons (.text "friends") (Json.arr (.cons (Json.obj (.cons (.text "last_name")
          (.str "Smith") .nil)) .nil)) .nil)))
      = Json.obj (.cons (.text "firstName") (.str "Alice")
          (.cons (.text "friends") (Json.arr (.cons (Json.obj (.cons (.text "lastName")
            (.str "Smith") .nil)) .nil)) .nil))
    ∧ snakecaseKeys true (Json.obj (.cons (.text "firstName") (.str "Bob") .nil))
      = Json.obj (.cons (.text "first_name") (.str "Bob") .nil) :=
  ⟨rfl, rfl⟩

/-- C8.  A malformed mapping key passes through the transcoder unchanged
rather than failing the traversal: every other key in the mapping, before and
after it, is still rewritten, and the values are still processed according to
`deep`.  (The transcoder is a total Lean function, so no input raises an
exception, and it builds a new tree, so it has no side effects.) -/
theorem claim_C8_malformed_passthrough (f : String → String) (deep : Bool) (m : Nat)
    (v : Json) (pre post : JsonFields) :
    transcodeV f deep (Json.obj (appendFields pre (.cons (.malformed m) v post)))
      = Json.obj (appendFields (transcodeF f deep pre)
          (.cons (.malformed m) (if deep then transcodeV f true v else v)
            (transcodeF f deep post)))
    ∧ rewriteKey f (.malformed m) = .malformed m := by
  constructor
  · show Json.obj (transcodeF f deep (appendFields pre (.cons (.malformed m) v post))) = _
    rw [transcodeF_appendFields]
    rfl
  · rfl

/-- C9.  Whenever the response data is falsy or the content type does not
include `application/json`, the global `transformResponse` returns
`undefined` (not the original body); symmetrically, the global
`transformRequest` returns `undefined` for falsy or non-JSON request data. -/
theorem claim_C9_undefined_on_nonjson (parse : String → Json)
    (stringify : Json → String) (data : String) (body : Option Json) (ct : String) :
    (data = "" ∨ strIncludes ct "application/json" = false →
      transformResponse parse data ct = none)
    ∧ (optTruthy body = false ∨ strIncludes ct "application/json" = false →
      transformRequest stringify body ct = none) := by
  constructor
  · intro h
    rw [transformResponse, if_neg]
    rcases h with h | h
    · simp [h]
    · rw [h]
      simp
  · intro h
    cases body with
    | none => rfl
    | some v =>
      rw [transformRequest, if_neg]
      rcases h with h | h
      · rw [show optTruthy (some v) = jsTruthy v from rfl] at h
        simp [h]
      · rw [h]
        simp

/-- Witness for C9: empty response data and a null request body under a JSON
content type both yield `undefined`. -/
theorem claim_C9_undefined_on_nonjson_witness :
    ((("" : String) = "" ∨ strIncludes "application/json" "application/json" = false)
      ∧ transformResponse parseNull "" "application/json" = none)
    ∧ ((optTruthy (some Json.null) = false
          ∨ strIncludes "application/json" "application/json" = false)
      ∧ transformRequest stringifyEmpty (some Json.null) "application/json" = none) :=
  ⟨⟨Or.inl rfl,
    (claim_C9_undefined_on_nonjson parseNull stringifyEmpty "" (some Json.null)
      "application/json").1 (Or.inl rfl)⟩,
   ⟨Or.inl (by decide),
    (claim_C9_undefined_on_nonjson parseNull stringifyEmpty "" (some Json.null)
      "application/json").2 (Or.inl (by decide))⟩⟩

/-- C10.  The per-request `transformRequest` array supplied by `updateUsers`
replaces the globally installed default array rather than composing with it,
so the posted `{ users }` body passes through exactly one snake_case
transcoding followed by one stringification. -/
theorem claim_C10_single_snakecase (stringify : Json → String)
    (defaults : List (ReqData → ReqData)) (users : JsonList) :
    mergeTransformRequest defaults (some (updateUsersConfigTransforms stringify))
        = updateUsersConfigTransforms stringify
    ∧ applyTransforms (mergeTransformRequest defaults
          (some (updateUsersConfigTransforms stringify))) (.obj (usersPayload users))
        = .str (stringify (snakecaseKeys true (usersPayload users))) :=
  ⟨rfl, rfl⟩
